import Mathlib

set_option maxRecDepth 4000

/-!
Verification of a Rust deterministic-finite-automaton program (src/main.rs).
The graph of Rc RefCell nodes is embedded as an arena: a list of nodes in
declaration order, with transitions stored as association lists from a symbol
to the index of the destination node, as the design notes of the specification
suggest for a shared cyclic graph.  Rust strings are embedded as lists of
characters.  Every panic site of the parser (unwrap on a missing state, index
out of bounds on a missing arrow or comma, unwrap on a missing symbol
character, and the explicit panic on an unknown current state) is modelled as
an error value of the ParseError type, so that process abort is observable as
an Except.error result.
-/

deriving instance DecidableEq for Except

namespace AFD

/-- A Rust string slice, embedded as its list of characters. -/
abbrev Str := List Char

/-- The left brace character, written by code point. -/
def lbrace : Char := Char.ofNat 123

/-- The right brace character, written by code point. -/
def rbrace : Char := Char.ofNat 125

/-- Rust str::trim on the left end: drop leading whitespace. -/
def trimLeft (s : Str) : Str := s.dropWhile Char.isWhitespace

/-- Rust str::trim on the right end: drop trailing whitespace. -/
def trimRight (s : Str) : Str := (s.reverse.dropWhile Char.isWhitespace).reverse

/-- Rust str::trim: drop whitespace on both ends. -/
def trim (s : Str) : Str := trimRight (trimLeft s)

/-- Prepend a character to the first group produced by a split. -/
def consHead (c : Char) : List Str → List Str
  | [] => [[c]]
  | g :: gs => (c :: g) :: gs

/-- Rust str::split with a one-character separator: empty groups are kept,
and the empty string splits into one empty group. -/
def splitOnChar (sep : Char) : Str → List Str
  | [] => [[]]
  | c :: rest =>
    if c = sep then [] :: splitOnChar sep rest
    else consHead c (splitOnChar sep rest)

/-- Rust str::split with the two-character separator used for transitions,
consuming non-overlapping occurrences left to right. -/
def splitOnArrow : Str → List Str
  | [] => [[]]
  | '-' :: '>' :: rest => [] :: splitOnArrow rest
  | c :: rest => consHead c (splitOnArrow rest)

/-- One step of Rust str::trim_start_matches, with fuel bounding the number
of prefix removals by the length of the string. -/
def trimStartMatchesAux (pat : Str) : Nat → Str → Str
  | 0, s => s
  | fuel + 1, s =>
    if !pat.isEmpty && pat.isPrefixOf s then
      trimStartMatchesAux pat fuel (s.drop pat.length)
    else s

/-- Rust str::trim_start_matches: repeatedly strip the pattern from the
front of the string while it is a prefix. -/
def trimStartMatches (pat s : Str) : Str := trimStartMatchesAux pat s.length s

/-- Whether a character is one of the two brace characters. -/
def isBrace (c : Char) : Bool := c = lbrace || c = rbrace

/-- The two successive Rust replace calls deleting both brace characters. -/
def removeBraces (s : Str) : Str := s.filter (fun c => !(isBrace c))

/-- Rust str::trim_matches with the brace predicate: strip braces from both
ends of the string. -/
def trimBraces (s : Str) : Str := ((s.dropWhile isBrace).reverse.dropWhile isBrace).reverse

/-- A graph node, Rust struct Node: a state name, an acceptance flag, and a
transition map from a symbol to the arena index of the destination node. -/
structure Node where
  state : Str
  is_accept : Bool
  transitions : List (Char × Nat)
deriving DecidableEq

/-- The node built by the call Node::new with an empty name and a false flag:
the placeholder that initializes start_state in DFA::from_string, and also the
default result of looking a node up outside the arena. -/
def dNode : Node := { state := [], is_accept := false, transitions := [] }

/-- The keyword prefix of an alphabet line. -/
def kwAlphabet : Str := ("alphabet=").toList

/-- The keyword prefix of a state-set line. -/
def kwState : Str := ("state=").toList

/-- The keyword prefix of a start-state line. -/
def kwStart : Str := ("start_state=").toList

/-- The keyword prefix of a final-state-set line. -/
def kwF : Str := ("F=").toList

/-- The opening parenthesis that begins a transition line. -/
def kwParen : Str := ("(").toList

/-- Rust states.iter().find comparing node names: the index of the first node
in the arena carrying the given name. -/
def findState (name : Str) : List Node → Option Nat
  | [] => none
  | n :: rest => if n.state = name then some 0 else (findState name rest).map (fun i => i + 1)

/-- Read the node at an arena index, with the placeholder as default for an
index outside the arena. -/
def getNode : List Node → Nat → Node
  | [], _ => dNode
  | n :: _, 0 => n
  | _ :: rest, i + 1 => getNode rest i

/-- Set the acceptance flag of the node at an index to true, the borrow_mut
assignment performed for each accumulated final state. -/
def setAccept : List Node → Nat → List Node
  | [], _ => []
  | n :: rest, 0 => { n with is_accept := true } :: rest
  | n :: rest, i + 1 => n :: setAccept rest i

/-- The marking loop over the accumulated final-state indices. -/
def markAccept : List Node → List Nat → List Node
  | states, [] => states
  | states, i :: rest => markAccept (setAccept states i) rest

/-- Rust HashMap::insert on the transition map: replace the binding of the
symbol when present, otherwise add a new binding. -/
def insertTransition : List (Char × Nat) → Char → Nat → List (Char × Nat)
  | [], sym, j => [(sym, j)]
  | (s, k) :: rest, sym, j =>
    if s = sym then (sym, j) :: rest else (s, k) :: insertTransition rest sym j

/-- Node::add_transition applied to the node at an arena index. -/
def addTransition : List Node → Nat → Char → Nat → List Node
  | [], _, _, _ => []
  | n :: rest, 0, sym, j => { n with transitions := insertTransition n.transitions sym j } :: rest
  | n :: rest, i + 1, sym, j => n :: addTransition rest i sym j

/-- The ways DFA::from_string can abort the process, one constructor per
panic site: the unwrap when the start state is not found, the out-of-bounds
index when a transition line has no arrow, the slice panic when the text
before the arrow is shorter than both parentheses, the out-of-bounds index
when the parenthesized pair has no comma, the unwrap when the symbol token is
empty, and the explicit panic when the current state of a transition does not
exist. -/
inductive ParseError where
  | missingState : Str → ParseError
  | missingArrow : Str → ParseError
  | badParens : Str → ParseError
  | missingComma : Str → ParseError
  | missingSymbol : Str → ParseError
  | unknownCurrentState : Str → ParseError
deriving DecidableEq

/-- Rust fn create_transitions_for_dfa: split the line on the arrow, strip
the outer characters of the left side, split it on commas, take the first
character of the trimmed symbol token, then install the transition when both
states exist; an unknown destination only prints a diagnostic and leaves the
arena unchanged, while an unknown current state panics. -/
def create_transitions_for_dfa (states : List Node) (input : Str) :
    Except ParseError (List Node) :=
  let parts := splitOnArrow input
  let transition_part := trim (parts.getD 0 [])
  match parts.get? 1 with
  | none => .error (.missingArrow input)
  | some p1 =>
    let next_state_name := trim p1
    if transition_part.length < 2 then .error (.badParens input)
    else
      let transition_inner := (transition_part.drop 1).dropLast
      let transition_parts := splitOnChar ',' transition_inner
      let state_input := trim (transition_parts.getD 0 [])
      match transition_parts.get? 1 with
      | none => .error (.missingComma input)
      | some sp =>
        let symbol_input := trim sp
        match symbol_input.head? with
        | none => .error (.missingSymbol input)
        | some symbol =>
          match findState state_input states with
          | some ci =>
            match findState next_state_name states with
            | some ni => .ok (addTransition states ci symbol ni)
            | none => .ok states
          | none => .error (.unknownCurrentState state_input)

/-- The mutable locals of DFA::from_string while it scans the lines. -/
structure ParseState where
  alphabet : List Char
  states : List Node
  start_state : Option Nat
  final_states : List Nat
deriving DecidableEq

/-- The initial locals of DFA::from_string: empty alphabet, no states, the
placeholder start node, and no final states. -/
def initState : ParseState :=
  { alphabet := [], states := [], start_state := none, final_states := [] }

/-- Rust HashSet::insert on the alphabet, keeping first-insertion order. -/
def insertChar (al : List Char) (c : Char) : List Char :=
  if c ∈ al then al else al ++ [c]

/-- The alphabet loop: insert every character that is neither a comma nor a
space. -/
def insertAlphabet (al : List Char) : Str → List Char
  | [] => al
  | c :: rest =>
    if c ≠ ',' ∧ c ≠ ' ' then insertAlphabet (insertChar al c) rest
    else insertAlphabet al rest

/-- The token list of a final-state line: strip the keyword, trim, strip the
enclosing braces, and split on commas.  The argument is the already trimmed
line. -/
def finalTokens (line : Str) : List Str :=
  splitOnChar ',' (trimBraces (trim (trimStartMatches kwF line)))

/-- One iteration of the line loop of DFA::from_string, dispatching on the
recognized line forms in the order the source tests them. -/
def processLine (st : ParseState) (line0 : Str) : Except ParseError ParseState :=
  let line := trim line0
  if kwAlphabet.isPrefixOf line then
    let chars := removeBraces (trimStartMatches kwAlphabet line)
    .ok { st with alphabet := insertAlphabet st.alphabet chars }
  else if kwState.isPrefixOf line then
    let state_str := removeBraces (trimStartMatches kwState line)
    let newNodes := (splitOnChar ',' state_str).map
      (fun s => { state := trim s, is_accept := false, transitions := [] : Node })
    .ok { st with states := st.states ++ newNodes }
  else if kwStart.isPrefixOf line then
    let name := trimStartMatches kwStart line
    match findState name st.states with
    | some i => .ok { st with start_state := some i }
    | none => .error (.missingState name)
  else if kwF.isPrefixOf line then
    let new := (finalTokens line).filterMap (fun s => findState (trim s) st.states)
    let fs := st.final_states ++ new
    .ok { st with states := markAccept st.states fs, final_states := fs }
  else if kwParen.isPrefixOf line then
    (create_transitions_for_dfa st.states line).map (fun sts => { st with states := sts })
  else .ok st

/-- The line loop of DFA::from_string, stopping at the first panic. -/
def parseLines : ParseState → List Str → Except ParseError ParseState
  | st, [] => .ok st
  | st, l :: ls =>
    match processLine st l with
    | .ok st' => parseLines st' ls
    | .error e => .error e

/-- Rust struct DFA: the arena of states in declaration order, the alphabet,
and the start state; none stands for the placeholder node the start pointer
is initialized with. -/
structure DFA where
  states : List Node
  alphabet : List Char
  start_state : Option Nat
deriving DecidableEq

/-- Rust DFA::from_string: scan the lines and assemble the automaton. -/
def DFA.from_string (input : Str) : Except ParseError DFA :=
  (parseLines initState (splitOnChar '\n' input)).map
    (fun st => { states := st.states, alphabet := st.alphabet, start_state := st.start_state })

/-- Rust Node::next_state: look the symbol up in the transition map. -/
def Node.next_state (n : Node) (symbol : Char) : Option Nat :=
  (n.transitions.find? (fun p => p.1 = symbol)).map (fun p => p.2)

/-- Dereference the current-state pointer: the placeholder when it is none,
otherwise the node at the index. -/
def nodeOf (states : List Node) : Option Nat → Node
  | none => dNode
  | some i => getNode states i

/-- The loop of DFA::run with the arena threaded explicitly, so that the
absence of writes to the graph is a statement and not a convention: each
iteration reads the current node, follows the transition when it exists, and
otherwise answers false at once; exhausted input answers the acceptance flag
of the current node.  The returned arena is the graph as the loop left it. -/
def runLoop (states : List Node) : Option Nat → List Char → Bool × List Node
  | cur, [] => ((nodeOf states cur).is_accept, states)
  | cur, c :: rest =>
    match (nodeOf states cur).next_state c with
    | some next => runLoop states (some next) rest
    | none => (false, states)

/-- Rust DFA::run together with the graph it leaves behind. -/
def DFA.runM (A : DFA) (w : List Char) : Bool × DFA :=
  ((runLoop A.states A.start_state w).1,
   { states := (runLoop A.states A.start_state w).2,
     alphabet := A.alphabet, start_state := A.start_state })

/-- Rust DFA::run: the boolean verdict alone. -/
def DFA.run (A : DFA) (w : List Char) : Bool := (A.runM w).1

/-- Observer of the loop of DFA::run: the state the loop holds after
consuming the whole input, or none when a transition was missing.  This is
the state whose name the source prints when the word is rejected at the
end. -/
def endLoop (states : List Node) : Option Nat → List Char → Option (Option Nat)
  | cur, [] => some cur
  | cur, c :: rest =>
    match (nodeOf states cur).next_state c with
    | some next => endLoop states (some next) rest
    | none => none

/-- The final state of a run of the automaton on a word. -/
def DFA.endState (A : DFA) (w : List Char) : Option (Option Nat) :=
  endLoop A.states A.start_state w

/-- The specification text hard-coded in main, braces written by code
point. -/
def dfa_description : Str :=
  ("\n        alphabet=\x7b0,1\x7d\n        state=\x7bq0, q1, q1q2, q2\x7d\n        start_state=q0\n        F=\x7bq1q2, q2\x7d\n        (q0, 1)->q1\n        (q0, 0)->q0\n        (q1, 1)->q1\n        (q1, 0)->q1q2\n        (q1q2, 0)->q1q2\n        (q1q2, 1)->q1q2\n        (q2, 0)->q2\n        (q2, 1)->q1q2\n    ").toList

/-- The automaton the sample specification text builds: four states in
declaration order, the two accepting ones flagged, each transition map in
insertion order, the binary alphabet, and the first state as start. -/
def sampleDFA : DFA :=
  { states :=
      [ { state := ("q0").toList, is_accept := false, transitions := [('1', 1), ('0', 0)] }
      , { state := ("q1").toList, is_accept := false, transitions := [('1', 1), ('0', 2)] }
      , { state := ("q1q2").toList, is_accept := true, transitions := [('0', 2), ('1', 2)] }
      , { state := ("q2").toList, is_accept := true, transitions := [('0', 3), ('1', 2)] } ]
  , alphabet := ['0', '1']
  , start_state := some 0 }

/-- A one-state automaton whose only transition is labelled by a symbol that
is not in its declared alphabet. -/
def xDFA : DFA :=
  { states := [ { state := ("q0").toList, is_accept := true, transitions := [('x', 0)] } ]
  , alphabet := ['0'], start_state := some 0 }

/-- The same graph and start state as xDFA with a disjoint alphabet. -/
def yDFA : DFA :=
  { states := xDFA.states, alphabet := ['y'], start_state := some 0 }

/-- A two-state arena with no accepting state, used to exercise the lenient
final-state marking. -/
def wSt : ParseState :=
  { alphabet := []
  , states :=
      [ { state := ("q0").toList, is_accept := false, transitions := [] }
      , { state := ("q1").toList, is_accept := false, transitions := [] } ]
  , start_state := none
  , final_states := [] }

/-- The loop of DFA::run never writes to the arena: the graph it returns is
the graph it was given. -/
theorem runLoop_snd (states : List Node) :
    ∀ (cur : Option Nat) (w : List Char), (runLoop states cur w).2 = states := by
  intro cur w
  induction w generalizing cur with
  | nil => rfl
  | cons c rest ih =>
    cases h : (nodeOf states cur).next_state c with
    | some next =>
      simp only [runLoop, h]
      exact ih (some next)
    | none => simp only [runLoop, h]

/-- When the loop consumes the whole input ending in some state, the verdict
of the run is the acceptance flag of that state. -/
theorem endLoop_run (states : List Node) :
    ∀ (cur e : Option Nat) (w : List Char), endLoop states cur w = some e →
      (runLoop states cur w).1 = (nodeOf states e).is_accept := by
  intro cur e w
  induction w generalizing cur with
  | nil =>
    intro h
    simp only [endLoop, Option.some.injEq] at h
    subst h
    rfl
  | cons c rest ih =>
    intro h
    cases hn : (nodeOf states cur).next_state c with
    | some next =>
      simp only [endLoop, hn] at h
      simp only [runLoop, hn]
      exact ih (some next) h
    | none =>
      simp only [endLoop, hn] at h
      exact Option.noConfusion h

/-- The line loop distributes over appended line lists, stopping at the
first abort. -/
theorem parseLines_append (xs ys : List Str) : ∀ st : ParseState,
    parseLines st (xs ++ ys)
      = match parseLines st xs with
        | .ok st' => parseLines st' ys
        | .error e => .error e := by
  induction xs with
  | nil => intro st; rfl
  | cons l ls ih =>
    intro st
    simp only [List.cons_append, parseLines]
    cases processLine st l with
    | ok st' => exact ih st'
    | error e => rfl

/-- C1: run walks the graph consuming symbols in order.  A present transition
moves the loop to the destination and proceeds on the remaining input; a
missing transition answers false at once, whatever input remains unconsumed;
empty input answers the acceptance flag of the start state, so the empty word
is accepted exactly when the start state accepts; and when the whole input is
consumed the verdict is the acceptance flag of the final state.  The
functions are total, so a missing transition, in particular a symbol outside
the alphabet, yields the rejection value and never an undefined result. -/
theorem run_walks_graph (A : DFA) (cur : Option Nat) (c : Char) (w : List Char) :
    (∀ j, (nodeOf A.states cur).next_state c = some j →
        (runLoop A.states cur (c :: w)).1 = (runLoop A.states (some j) w).1)
    ∧ ((nodeOf A.states cur).next_state c = none →
        (runLoop A.states cur (c :: w)).1 = false)
    ∧ A.run [] = (nodeOf A.states A.start_state).is_accept
    ∧ (A.run [] = true ↔ (nodeOf A.states A.start_state).is_accept = true)
    ∧ (∀ e, A.endState w = some e → A.run w = (nodeOf A.states e).is_accept) := by
  refine ⟨?_, ?_, rfl, Iff.rfl, ?_⟩
  · intro j h
    simp only [runLoop, h]
  · intro h
    simp only [runLoop, h]
  · intro e h
    exact endLoop_run A.states A.start_state e w h

/-- Witness for C1 at the sample automaton: from the start state the symbol
one steps to the second state, and an unmapped symbol rejects at once. -/
theorem run_walks_graph_witness :
    (runLoop sampleDFA.states (some 0) ['1', '0']).1
        = (runLoop sampleDFA.states (some 1) ['0']).1
    ∧ (runLoop sampleDFA.states (some 0) ['x']).1 = false :=
  ⟨(run_walks_graph sampleDFA (some 0) '1' ['0']).1 1 (by decide),
   (run_walks_graph sampleDFA (some 0) 'x' []).2.1 (by decide)⟩

/-- C2: running is mutation free and deterministic.  The automaton a run
returns is the automaton it was given, every field included, and a second
run on that returned automaton yields the same verdict as the first. -/
theorem run_deterministic_no_mutation (A : DFA) (w : List Char) :
    (A.runM w).2 = A ∧ ((A.runM w).2.runM w).1 = (A.runM w).1 := by
  have h2 : (A.runM w).2 = A := by
    obtain ⟨sts, al, s0⟩ := A
    simp [DFA.runM, runLoop_snd]
  exact ⟨h2, by rw [h2]⟩

/-- C3: parsing the sample specification text builds exactly the expected
four-state automaton; running it on the word zero-one-one-zero ends in the
state named q1q2 and accepts, and running it on the word zero ends in the
state named q0 and rejects. -/
theorem sample_automaton_runs :
    DFA.from_string dfa_description = .ok sampleDFA
    ∧ sampleDFA.run (("0110").toList) = true
    ∧ (sampleDFA.endState (("0110").toList)).map (fun e => (nodeOf sampleDFA.states e).state)
        = some (("q1q2").toList)
    ∧ sampleDFA.run (("0").toList) = false
    ∧ (sampleDFA.endState (("0").toList)).map (fun e => (nodeOf sampleDFA.states e).state)
        = some (("q0").toList) := by
  refine ⟨by decide, by decide, by decide, by decide, by decide⟩

/-- C10: the alphabet field plays no role in execution.  Two automata with
the same arena and start state produce the same verdict on every input
whatever their alphabets, and a transition present in the current node is
followed normally even when its symbol is absent from the declared
alphabet. -/
theorem alphabet_unused_in_run (A B : DFA) (w : List Char) (cur : Option Nat)
    (c : Char) (j : Nat) :
    (A.states = B.states → A.start_state = B.start_state → A.run w = B.run w)
    ∧ (c ∉ A.alphabet → (nodeOf A.states cur).next_state c = some j →
        (runLoop A.states cur (c :: w)).1 = (runLoop A.states (some j) w).1) := by
  constructor
  · intro h1 h2
    simp only [DFA.run, DFA.runM, h1, h2]
  · intro _ h
    simp only [runLoop, h]

/-- Witness for C10: two automata differing only in the alphabet agree on a
word, and the transition labelled by the out-of-alphabet symbol x is
followed. -/
theorem alphabet_unused_in_run_witness :
    xDFA.run ['x'] = yDFA.run ['x']
    ∧ (runLoop xDFA.states (some 0) ['x']).1 = (runLoop xDFA.states (some 0) []).1 :=
  ⟨(alphabet_unused_in_run xDFA yDFA ['x'] none 'a' 0).1 rfl rfl,
   (alphabet_unused_in_run xDFA yDFA [] (some 0) 'x' 0).2 (by decide) (by decide)⟩

/-- A list is a prefix of itself followed by anything. -/
theorem isPrefixOf_append_self : ∀ (p t : Str), p.isPrefixOf (p ++ t) = true := by
  intro p t
  induction p with
  | nil => simp [List.isPrefixOf]
  | cons c cs ih => simp [List.isPrefixOf, ih]

/-- A prefix test fails as soon as the heads differ. -/
theorem isPrefixOf_false_head (a b : Char) (as bs : Str) (h : ¬ a = b) :
    (a :: as).isPrefixOf (b :: bs) = false := by
  have hb : (a == b) = false := by
    cases hab : a == b
    · rfl
    · exact absurd (eq_of_beq hab) h
  simp [List.isPrefixOf, hb]

/-- A pattern that fails to be a prefix of a string at least as long as the
pattern also fails to be a prefix of every extension of that string. -/
theorem isPrefixOf_append_false : ∀ (p q : Str), p.isPrefixOf q = false →
    p.length ≤ q.length → ∀ t, p.isPrefixOf (q ++ t) = false := by
  intro p
  induction p with
  | nil =>
    intro q h _ t
    simp [List.isPrefixOf] at h
  | cons a as ih =>
    intro q h hlen t
    cases q with
    | nil => simp at hlen
    | cons b bs =>
      cases hab : a == b
      · simp [List.cons_append, List.isPrefixOf, hab]
      · have h' : as.isPrefixOf bs = false := by
          simp only [List.isPrefixOf, hab, Bool.true_and] at h
          exact h
        have hlen' : as.length ≤ bs.length := by
          simp only [List.length_cons] at hlen
          exact Nat.le_of_succ_le_succ hlen
        simp [List.cons_append, List.isPrefixOf, hab, ih bs h' hlen' t]

/-- Looking a name up in the arena yields an index inside the arena whose
node carries that name. -/
theorem findState_some : ∀ (sts : List Node) (name : Str) (j : Nat),
    findState name sts = some j → j < sts.length ∧ (getNode sts j).state = name := by
  intro sts
  induction sts with
  | nil =>
    intro name j h
    simp [findState] at h
  | cons n rest ih =>
    intro name j h
    simp only [findState] at h
    by_cases hn : n.state = name
    · rw [if_pos hn] at h
      cases h
      exact ⟨Nat.succ_pos _, hn⟩
    · rw [if_neg hn] at h
      cases hf : findState name rest with
      | none =>
        rw [hf] at h
        exact Option.noConfusion h
      | some j' =>
        rw [hf] at h
        simp only [Option.map_some', Option.some.injEq] at h
        subst h
        obtain ⟨hl, hs⟩ := ih name j' hf
        exact ⟨Nat.succ_lt_succ hl, hs⟩

/-- An index inside the arena reads back a member of the arena. -/
theorem getNode_mem : ∀ (sts : List Node) (j : Nat), j < sts.length → getNode sts j ∈ sts := by
  intro sts
  induction sts with
  | nil =>
    intro j h
    simp at h
  | cons n rest ih =>
    intro j h
    cases j with
    | zero => exact List.mem_cons_self _ _
    | succ j' => exact List.mem_cons_of_mem _ (ih j' (Nat.lt_of_succ_lt_succ h))

/-- With pairwise distinct state names, name lookup finds exactly the index
holding the name. -/
theorem findState_of_nodup : ∀ (sts : List Node) (j : Nat) (name : Str),
    (sts.map Node.state).Nodup → j < sts.length → (getNode sts j).state = name →
    findState name sts = some j := by
  intro sts
  induction sts with
  | nil =>
    intro j name _ hj _
    simp at hj
  | cons n rest ih =>
    intro j name hnd hj hs
    simp only [List.map_cons, List.nodup_cons] at hnd
    obtain ⟨hnot, hnd'⟩ := hnd
    cases j with
    | zero =>
      have hs0 : n.state = name := hs
      simp only [findState, if_pos hs0]
    | succ j' =>
      have hj' : j' < rest.length := Nat.lt_of_succ_lt_succ hj
      have hs' : (getNode rest j').state = name := hs
      have hne : ¬ n.state = name := by
        intro he
        apply hnot
        rw [he, ← hs']
        exact List.mem_map_of_mem Node.state (getNode_mem rest j' hj')
      simp only [findState, if_neg hne, ih j' name hnd' hj' hs', Option.map_some']

/-- Setting an acceptance flag does not change the length of the arena. -/
theorem setAccept_length : ∀ (sts : List Node) (i : Nat),
    (setAccept sts i).length = sts.length := by
  intro sts
  induction sts with
  | nil => intro i; rfl
  | cons n rest ih =>
    intro i
    cases i with
    | zero => rfl
    | succ j => simp [setAccept, ih j]

/-- Setting an acceptance flag preserves every state name. -/
theorem getNode_setAccept_state : ∀ (sts : List Node) (i j : Nat),
    (getNode (setAccept sts i) j).state = (getNode sts j).state := by
  intro sts
  induction sts with
  | nil => intro i j; cases i <;> rfl
  | cons n rest ih =>
    intro i j
    cases i with
    | zero => cases j <;> rfl
    | succ i' =>
      cases j with
      | zero => rfl
      | succ j' => exact ih i' j'

/-- After setting the flag at one index, a node accepts exactly when it
already accepted or it is the touched node and the index is inside the
arena. -/
theorem getNode_setAccept_accept : ∀ (sts : List Node) (i j : Nat),
    (getNode (setAccept sts i) j).is_accept
      = ((getNode sts j).is_accept || (decide (i = j) && decide (j < sts.length))) := by
  intro sts
  induction sts with
  | nil =>
    intro i j
    simp [setAccept, getNode, dNode]
  | cons n rest ih =>
    intro i j
    cases i with
    | zero =>
      cases j with
      | zero => simp [setAccept, getNode]
      | succ j' => simp [setAccept, getNode]
    | succ i' =>
      cases j with
      | zero => simp [setAccept, getNode]
      | succ j' =>
        simp only [setAccept, getNode, List.length_cons]
        rw [ih i' j']
        simp [Nat.succ_lt_succ_iff]

/-- The marking loop does not change the length of the arena. -/
theorem markAccept_length : ∀ (fs : List Nat) (sts : List Node),
    (markAccept sts fs).length = sts.length := by
  intro fs
  induction fs with
  | nil => intro sts; rfl
  | cons i rest ih =>
    intro sts
    simp only [markAccept]
    rw [ih, setAccept_length]

/-- The marking loop preserves every state name. -/
theorem getNode_markAccept_state : ∀ (fs : List Nat) (sts : List Node) (j : Nat),
    (getNode (markAccept sts fs) j).state = (getNode sts j).state := by
  intro fs
  induction fs with
  | nil => intro sts j; rfl
  | cons i rest ih =>
    intro sts j
    simp only [markAccept]
    rw [ih, getNode_setAccept_state]

/-- After the marking loop, a node accepts exactly when it already accepted
or its index occurs in the marked list inside the arena bounds. -/
theorem getNode_markAccept_accept : ∀ (fs : List Nat) (sts : List Node) (j : Nat),
    (getNode (markAccept sts fs) j).is_accept
      = ((getNode sts j).is_accept
         || fs.any (fun i => decide (i = j) && decide (j < sts.length))) := by
  intro fs
  induction fs with
  | nil => intro sts j; simp [markAccept]
  | cons i rest ih =>
    intro sts j
    simp only [markAccept]
    rw [ih, getNode_setAccept_accept, setAccept_length]
    simp [List.any_cons, Bool.or_assoc]

/-- Marking never resurrects states in an empty arena. -/
theorem markAccept_nil : ∀ (fs : List Nat), markAccept [] fs = [] := by
  intro fs
  induction fs with
  | nil => rfl
  | cons i rest ih => simp [markAccept, setAccept, ih]

/-- A constantly failing extraction filters a list down to nothing. -/
theorem filterMap_const_none : ∀ (ts : List Str),
    ts.filterMap (fun _ => (none : Option Nat)) = [] := by
  intro ts
  induction ts with
  | nil => rfl
  | cons t rest ih => simp [List.filterMap_cons, ih]

/-- C5: a start-state line naming a state that no earlier state line
declared aborts DFA::from_string with the missing-state panic, instead of
producing an automaton.  The hypothesis gives the lines before the
start-state line, the parse state they produce, and the failed lookup of the
stripped name in the states declared so far. -/
theorem start_state_missing_fails (input line rest : Str) (pre post : List Str)
    (st : ParseState)
    (hsplit : splitOnChar '\n' input = pre ++ line :: post)
    (hpre : parseLines initState pre = .ok st)
    (hline : trim line = kwStart ++ rest)
    (hmiss : findState (trimStartMatches kwStart (trim line)) st.states = none) :
    DFA.from_string input
      = .error (.missingState (trimStartMatches kwStart (trim line))) := by
  have hA : kwAlphabet.isPrefixOf (trim line) = false := by
    rw [hline]
    exact isPrefixOf_append_false kwAlphabet kwStart (by decide) (by decide) rest
  have hS : kwState.isPrefixOf (trim line) = false := by
    rw [hline]
    exact isPrefixOf_append_false kwState kwStart (by decide) (by decide) rest
  have hSt : kwStart.isPrefixOf (trim line) = true := by
    rw [hline]
    exact isPrefixOf_append_self kwStart rest
  have hproc : processLine st line
      = .error (.missingState (trimStartMatches kwStart (trim line))) := by
    simp [processLine, hA, hS, hSt, hmiss]
  rw [DFA.from_string, hsplit, parseLines_append, hpre]
  simp only [parseLines, hproc]
  rfl

/-- Witness for C5: a text declaring only q0 and then designating qZ as the
start state aborts with the missing-state panic. -/
theorem start_state_missing_fails_witness :
    DFA.from_string (("state=\x7bq0\x7d\nstart_state=qZ").toList)
      = .error (.missingState (("qZ").toList)) :=
  start_state_missing_fails _ (("start_state=qZ").toList) (("qZ").toList)
    [("state=\x7bq0\x7d").toList] []
    { alphabet := []
    , states := [ { state := ("q0").toList, is_accept := false, transitions := [] } ]
    , start_state := none, final_states := [] }
    (by decide) (by decide) (by decide) (by decide)

/-- C6 counterexample: a transition line whose destination state was never
declared does not abort the parse; the specification text parses to an
automaton, the offending transition silently skipped. -/
theorem unknown_target_not_fatal_cex :
    DFA.from_string (("state=\x7bq0\x7d\n(q0, 0)->qZ").toList)
      = .ok { states := [ { state := ("q0").toList, is_accept := false, transitions := [] } ]
            , alphabet := [], start_state := none } := by decide

/-- C6 amended: for a transition line the specification parser can split,
an undeclared destination state is only a printed diagnostic, the arena is
returned unchanged and parsing continues, while an undeclared current state
is fatal and aborts the process. -/
theorem transition_error_policy (states : List Node) (line lhs rhs t0 t1 : Str)
    (ts : List Str) (a : Char) (ci : Nat)
    (hsplit : splitOnArrow line = [lhs, rhs])
    (hlen : 2 ≤ (trim lhs).length)
    (hcomma : splitOnChar ',' (((trim lhs).drop 1).dropLast) = t0 :: t1 :: ts)
    (hsym : (trim t1).head? = some a) :
    (findState (trim rhs) states = none → findState (trim t0) states = some ci →
        create_transitions_for_dfa states line = .ok states)
    ∧ (findState (trim t0) states = none →
        create_transitions_for_dfa states line
          = .error (.unknownCurrentState (trim t0))) := by
  have hnot : ¬ (trim lhs).length < 2 := Nat.not_lt.mpr hlen
  rw [List.drop_one] at hcomma
  constructor
  · intro hnext hcur
    simp only [create_transitions_for_dfa, hsplit]
    simp [hcomma, hsym, hcur, hnext, hnot]
  · intro hcur
    simp only [create_transitions_for_dfa, hsplit]
    simp [hcomma, hsym, hcur, hnot]

/-- Witness for C6: with state q0 declared the line targeting the undeclared
qZ leaves the arena untouched, and with only q1 declared the same line
aborts on its undeclared current state q0. -/
theorem transition_error_policy_witness :
    (create_transitions_for_dfa
        [ { state := ("q0").toList, is_accept := false, transitions := [] } ]
        (("(q0, 0)->qZ").toList)
      = .ok [ { state := ("q0").toList, is_accept := false, transitions := [] } ])
    ∧ (create_transitions_for_dfa
        [ { state := ("q1").toList, is_accept := false, transitions := [] } ]
        (("(q0, 0)->q1").toList)
      = .error (.unknownCurrentState (("q0").toList))) :=
  ⟨(transition_error_policy
      [ { state := ("q0").toList, is_accept := false, transitions := [] } ]
      (("(q0, 0)->qZ").toList) (("(q0, 0)").toList) (("qZ").toList)
      (("q0").toList) ((" 0").toList) [] '0' 0
      (by decide) (by decide) (by decide) (by decide)).1 (by decide) (by decide),
   (transition_error_policy
      [ { state := ("q1").toList, is_accept := false, transitions := [] } ]
      (("(q0, 0)->q1").toList) (("(q0, 0)").toList) (("q1").toList)
      (("q0").toList) ((" 0").toList) [] '0' 0
      (by decide) (by decide) (by decide) (by decide)).2 (by decide)⟩

/-- C7: the installed transition symbol is the first character of the
trimmed token after the comma; any further characters of the token are
ignored. -/
theorem symbol_truncated_to_first_char (states : List Node) (line lhs rhs t0 t1 : Str)
    (ts : List Str) (a : Char) (more : Str) (ci ni : Nat)
    (hsplit : splitOnArrow line = [lhs, rhs])
    (hlen : 2 ≤ (trim lhs).length)
    (hcomma : splitOnChar ',' (((trim lhs).drop 1).dropLast) = t0 :: t1 :: ts)
    (htok : trim t1 = a :: more)
    (hcur : findState (trim t0) states = some ci)
    (hnext : findState (trim rhs) states = some ni) :
    create_transitions_for_dfa states line = .ok (addTransition states ci a ni) := by
  have hnot : ¬ (trim lhs).length < 2 := Nat.not_lt.mpr hlen
  rw [List.drop_one] at hcomma
  simp only [create_transitions_for_dfa, hsplit]
  simp [hcomma, htok, hcur, hnext, hnot]

/-- Witness for C7: the line whose symbol token is the two characters ab
installs a transition from q0 to q1 on the single symbol a. -/
theorem symbol_truncated_to_first_char_witness :
    create_transitions_for_dfa
      [ { state := ("q0").toList, is_accept := false, transitions := [] }
      , { state := ("q1").toList, is_accept := false, transitions := [] } ]
      (("(q0, ab)->q1").toList)
      = .ok [ { state := ("q0").toList, is_accept := false, transitions := [('a', 1)] }
            , { state := ("q1").toList, is_accept := false, transitions := [] } ] :=
  symbol_truncated_to_first_char
    [ { state := ("q0").toList, is_accept := false, transitions := [] }
    , { state := ("q1").toList, is_accept := false, transitions := [] } ]
    (("(q0, ab)->q1").toList) (("(q0, ab)").toList) (("q1").toList)
    (("q0").toList) ((" ab").toList) [] 'a' (("b").toList) 0 1
    (by decide) (by decide) (by decide) (by decide) (by decide) (by decide)

/-- C8: malformed transition lines abort DFA::from_string.  A line starting
with a parenthesis but lacking an arrow hits the out-of-bounds panic, and a
line whose symbol token is empty hits the unwrap panic on the missing first
character. -/
theorem parser_aborts_on_malformed :
    DFA.from_string (("state=\x7bq0\x7d\n(q0").toList)
      = .error (.missingArrow (("(q0").toList))
    ∧ DFA.from_string (("state=\x7bq0, q1\x7d\n(q0, )->q1").toList)
      = .error (.missingSymbol (("(q0, )->q1").toList)) :=
  ⟨by decide, by decide⟩

/-- C4: a final-state line always parses, and with pairwise distinct state
names it flips the acceptance flag to true on exactly those states whose
trimmed name occurs among the comma-separated tokens; every other field of
the parse state, every state name, and the arena length are untouched, so
tokens matching no declared state are silently ignored.  The hypothesis on
the previously accumulated final-state indices records the parser invariant
that they already point at accepting states. -/
theorem final_states_lenient (st : ParseState) (line rest : Str)
    (hline : trim line = kwF ++ rest)
    (hnd : (st.states.map Node.state).Nodup)
    (hfs : ∀ i ∈ st.final_states, (getNode st.states i).is_accept = true) :
    ∃ st', processLine st line = .ok st'
      ∧ st'.alphabet = st.alphabet
      ∧ st'.start_state = st.start_state
      ∧ st'.states.length = st.states.length
      ∧ ∀ j, j < st.states.length →
          (getNode st'.states j).state = (getNode st.states j).state
          ∧ (getNode st'.states j).is_accept
              = ((getNode st.states j).is_accept
                 || (finalTokens (trim line)).any
                      (fun s => decide ((getNode st.states j).state = trim s))) := by
  have hA : kwAlphabet.isPrefixOf (trim line) = false := by
    rw [hline, show kwF ++ rest = 'F' :: ('=' :: rest) from rfl,
      show kwAlphabet = 'a' :: (("lphabet=").toList) from rfl]
    exact isPrefixOf_false_head _ _ _ _ (by decide)
  have hS : kwState.isPrefixOf (trim line) = false := by
    rw [hline, show kwF ++ rest = 'F' :: ('=' :: rest) from rfl,
      show kwState = 's' :: (("tate=").toList) from rfl]
    exact isPrefixOf_false_head _ _ _ _ (by decide)
  have hSt : kwStart.isPrefixOf (trim line) = false := by
    rw [hline, show kwF ++ rest = 'F' :: ('=' :: rest) from rfl,
      show kwStart = 's' :: (("tart_state=").toList) from rfl]
    exact isPrefixOf_false_head _ _ _ _ (by decide)
  have hF : kwF.isPrefixOf (trim line) = true := by
    rw [hline]
    exact isPrefixOf_append_self kwF rest
  refine ⟨{ st with
      states := markAccept st.states (st.final_states ++
        (finalTokens (trim line)).filterMap (fun s => findState (trim s) st.states)),
      final_states := st.final_states ++
        (finalTokens (trim line)).filterMap (fun s => findState (trim s) st.states) },
    ?_, rfl, rfl, ?_, ?_⟩
  · simp [processLine, hA, hS, hSt, hF]
  · exact markAccept_length _ _
  · intro j hj
    refine ⟨getNode_markAccept_state _ _ _, ?_⟩
    rw [getNode_markAccept_accept, List.any_append]
    have hjl : decide (j < st.states.length) = true := decide_eq_true hj
    simp only [hjl, Bool.and_true]
    cases hacc : (getNode st.states j).is_accept with
    | true => simp
    | false =>
      simp only [Bool.false_or]
      have hold : st.final_states.any (fun i => decide (i = j)) = false := by
        cases hoa : st.final_states.any (fun i => decide (i = j)) with
        | false => rfl
        | true =>
          exfalso
          obtain ⟨i, hi, hij⟩ := List.any_eq_true.mp hoa
          have : i = j := of_decide_eq_true hij
          subst this
          rw [hfs i hi] at hacc
          exact Bool.noConfusion hacc
      rw [hold, Bool.false_or]
      cases hna : ((finalTokens (trim line)).filterMap
          (fun s => findState (trim s) st.states)).any (fun i => decide (i = j)) with
      | false =>
        cases hta : (finalTokens (trim line)).any
            (fun s => decide ((getNode st.states j).state = trim s)) with
        | false => rfl
        | true =>
          exfalso
          obtain ⟨s, hs, hmatch⟩ := List.any_eq_true.mp hta
          have hname : (getNode st.states j).state = trim s := of_decide_eq_true hmatch
          have hfind : findState (trim s) st.states = some j :=
            findState_of_nodup _ j _ hnd hj hname
          have hjnew : j ∈ (finalTokens (trim line)).filterMap
              (fun s => findState (trim s) st.states) :=
            List.mem_filterMap.mpr ⟨s, hs, hfind⟩
          have hn2 : ((finalTokens (trim line)).filterMap
              (fun s => findState (trim s) st.states)).any (fun i => decide (i = j)) = true :=
            List.any_eq_true.mpr ⟨j, hjnew, by simp⟩
          rw [hna] at hn2
          exact Bool.noConfusion hn2
      | true =>
        obtain ⟨i, hi, hij⟩ := List.any_eq_true.mp hna
        have hij' : i = j := of_decide_eq_true hij
        rw [hij'] at hi
        obtain ⟨s, hs, hfind⟩ := List.mem_filterMap.mp hi
        obtain ⟨_, hname⟩ := findState_some _ _ _ hfind
        have hta : (finalTokens (trim line)).any
            (fun s => decide ((getNode st.states j).state = trim s)) = true :=
          List.any_eq_true.mpr ⟨s, hs, decide_eq_true hname⟩
        rw [hta]

/-- Witness for C4: marking final states q1 and the undeclared bogus over
the two-state arena succeeds, flips exactly the flag of q1, and ignores the
bogus name. -/
theorem final_states_lenient_witness :
    ∃ st', processLine wSt (("F=\x7bq1, bogus\x7d").toList) = .ok st'
      ∧ st'.alphabet = wSt.alphabet
      ∧ st'.start_state = wSt.start_state
      ∧ st'.states.length = wSt.states.length
      ∧ ∀ j, j < wSt.states.length →
          (getNode st'.states j).state = (getNode wSt.states j).state
          ∧ (getNode st'.states j).is_accept
              = ((getNode wSt.states j).is_accept
                 || (finalTokens (trim (("F=\x7bq1, bogus\x7d").toList))).any
                      (fun s => decide ((getNode wSt.states j).state = trim s))) :=
  final_states_lenient wSt (("F=\x7bq1, bogus\x7d").toList) (("\x7bq1, bogus\x7d").toList)
    (by decide) (by decide) (by simp [wSt])

/-- C9 counterexample: a specification text with no state line but with a
start-state line does not produce a placeholder automaton; it aborts with
the missing-state panic. -/
theorem no_state_line_cex :
    DFA.from_string (("start_state=q0").toList)
      = .error (.missingState (("q0").toList)) := by decide

/-- Parsing lines that declare no states, designate no start state, and add
no transitions keeps the arena and the final-state list empty, leaves the
start pointer untouched, and never aborts. -/
theorem parse_no_states_inv : ∀ (lines : List Str) (st : ParseState),
    (∀ l ∈ lines, kwState.isPrefixOf (trim l) = false
      ∧ kwStart.isPrefixOf (trim l) = false
      ∧ kwParen.isPrefixOf (trim l) = false) →
    st.states = [] → st.final_states = [] →
    ∃ st', parseLines st lines = .ok st'
      ∧ st'.states = [] ∧ st'.final_states = [] ∧ st'.start_state = st.start_state := by
  intro lines
  induction lines with
  | nil =>
    intro st _ h1 h2
    exact ⟨st, rfl, h1, h2, rfl⟩
  | cons l ls ih =>
    intro st hl h1 h2
    obtain ⟨hS, hSt, hP⟩ := hl l (List.mem_cons_self l ls)
    have hrest := fun l' hl' => hl l' (List.mem_cons_of_mem l hl')
    by_cases hA : kwAlphabet.isPrefixOf (trim l) = true
    · have hproc : processLine st l = .ok { st with
          alphabet := insertAlphabet st.alphabet
            (removeBraces (trimStartMatches kwAlphabet (trim l))) } := by
        simp [processLine, hA]
      obtain ⟨st', hok, p1, p2, p3⟩ := ih { st with
          alphabet := insertAlphabet st.alphabet
            (removeBraces (trimStartMatches kwAlphabet (trim l))) } hrest h1 h2
      exact ⟨st', by simp only [parseLines, hproc]; exact hok, p1, p2, p3⟩
    · simp only [Bool.not_eq_true] at hA
      by_cases hF : kwF.isPrefixOf (trim l) = true
      · have hproc : processLine st l = .ok st := by
          obtain ⟨al, sts, s0, fs⟩ := st
          simp only at h1 h2
          subst h1
          subst h2
          simp [processLine, hA, hS, hSt, hF, findState, filterMap_const_none, markAccept]
        obtain ⟨st', hok, p1, p2, p3⟩ := ih st hrest h1 h2
        exact ⟨st', by simp only [parseLines, hproc]; exact hok, p1, p2, p3⟩
      · simp only [Bool.not_eq_true] at hF
        have hproc : processLine st l = .ok st := by
          simp [processLine, hA, hS, hSt, hF, hP]
        obtain ⟨st', hok, p1, p2, p3⟩ := ih st hrest h1 h2
        exact ⟨st', by simp only [parseLines, hproc]; exact hok, p1, p2, p3⟩

/-- C9 amended: a specification text with no state line, no start-state
line, and no transition line parses successfully to an automaton with an
empty state set and the placeholder start state, however many alphabet,
final-state, or unrecognized lines it contains; but a start-state line or a
transition line in a stateless text aborts instead. -/
theorem no_state_line_lenient (input : Str)
    (h : ∀ l ∈ splitOnChar '\n' input,
        kwState.isPrefixOf (trim l) = false
        ∧ kwStart.isPrefixOf (trim l) = false
        ∧ kwParen.isPrefixOf (trim l) = false) :
    ∃ A, DFA.from_string input = .ok A ∧ A.states = [] ∧ A.start_state = none := by
  obtain ⟨st', hok, p1, _, p3⟩ :=
    parse_no_states_inv (splitOnChar '\n' input) initState h rfl rfl
  refine ⟨{ states := st'.states, alphabet := st'.alphabet, start_state := st'.start_state },
    ?_, p1, p3⟩
  rw [DFA.from_string, hok]
  rfl

/-- Witness for C9: a text with an alphabet line, a final-state line naming
an undeclared q0, and a stray word parses to the empty placeholder
automaton. -/
theorem no_state_line_lenient_witness :
    ∃ A, DFA.from_string (("alphabet=\x7b0,1\x7d\nF=\x7bq0\x7d\nhello").toList) = .ok A
      ∧ A.states = [] ∧ A.start_state = none :=
  no_state_line_lenient (("alphabet=\x7b0,1\x7d\nF=\x7bq0\x7d\nhello").toList) (by decide)

end AFD
